import Mathlib

/-!
Verification of `eSCAPE/pit/pitfillunst.py` (class `UnstPit`).

The development shallowly embeds the numerical/graph bookkeeping of
`UnstPit.defineDepressionParameters` and `UnstPit.depositDepression`:

* numpy float arrays become functions `ℕ → ℚ`, integer arrays `ℕ → ℤ`;
* an MPI `Allreduce`/`Reduce` with `op=MPI.MAX` over per-rank buffers becomes a
  componentwise fold of `max` over the list of rank contributions;
* `np.cumsum` becomes a sum over `List.range`;
* the Fortran kernels (`pitVolume`, `pitHeight`, `addExcess`, `fillDepression`)
  are part of eSCAPE but their source is not in this repository; they are
  modelled from the spec where a claim needs them, as flagged in doc comments.
-/

namespace EscapePit

/-! ## Definitions -/

/-- One rank's contribution to the `label_offset` buffer of
`defineDepressionParameters` (line 144-145): the buffer is initialised to `-1`
everywhere and rank `r` writes `max(1, len(graph)) + 1` into slot `r + 1`.
`counts` lists the per-rank local depression counts `len(graph)`. -/
def rankContribution (counts : List ℕ) (r i : ℕ) : ℤ :=
  if i = r + 1 then ((max 1 (counts.getD r 0) : ℕ) : ℤ) + 1 else -1

/-- Slot `i` of `label_offset` after `Allreduce(MAX)` (line 146) and the
subsequent overwrite `label_offset[0] = 0` (line 147). -/
def labelOffsetEntry (counts : List ℕ) (i : ℕ) : ℤ :=
  if i = 0 then 0
  else ((List.range counts.length).map (fun r => rankContribution counts r i)).foldl max (-1)

/-- `offset[r]` with `offset = np.cumsum(label_offset)` (line 148): the sum of
the entries `0 .. r`. -/
def offsetAt (counts : List ℕ) (r : ℕ) : ℤ :=
  ((List.range (r + 1)).map (labelOffsetEntry counts)).sum

/-- A row of the local spill graph `graph` returned by
`performPitFillingUnstruct`: source depression id, target depression id
(`-1` when the depression spills to the domain exterior), spill elevation. -/
structure LEdge where
  src : ℤ
  tgt : ℤ
  wgt : ℚ
deriving DecidableEq, Inhabited

/-- The label shift applied to one graph row by lines 150-152:
`graph[:,0] += offset[MPIrank]` unconditionally, while
`graph[ids,1] += offset[MPIrank]` only for `ids = np.where(graph[:,1] > 0)`. -/
def shiftEdge (off : ℤ) (e : LEdge) : LEdge :=
  { e with src := e.src + off, tgt := if 0 < e.tgt then e.tgt + off else e.tgt }

/-- Line 150-152 applied to the whole local graph. -/
def shiftGraph (off : ℤ) (g : List LEdge) : List LEdge :=
  g.map (shiftEdge off)

/-- Line 149, `watershed += offset[MPIrank]`, applied to the per-node
watershed label array. -/
def shiftWatershed (off : ℤ) (w : ℕ → ℤ) : ℕ → ℤ :=
  fun i => w i + off

/-- One rank's contribution to the second `label_offset` buffer (lines
173-174): the buffer is initialised to `0` and rank `r` writes
`max(1, len(cgraph))` into slot `r + 1`.  `lens` lists the per-rank
`len(cgraph)` values. -/
def gatherContribution (lens : List ℕ) (r i : ℕ) : ℤ :=
  if i = r + 1 then ((max 1 (lens.getD r 0) : ℕ) : ℤ) else 0

/-- Slot `i` of the second `label_offset` after `Allreduce(MAX)` (line 175). -/
def gatherEntry (lens : List ℕ) (i : ℕ) : ℤ :=
  if i = 0 then 0
  else ((List.range lens.length).map (fun r => gatherContribution lens r i)).foldl max 0

/-- `offset[r]` with `offset = np.cumsum(label_offset)` (line 176): the start
of rank `r`'s row slot in the fixed-width send buffer. -/
def gatherOffset (lens : List ℕ) (r : ℕ) : ℤ :=
  ((List.range (r + 1)).map (gatherEntry lens)).sum

/-- Rank `r`'s send buffer `graph` of lines 177-179: a `-1`-filled
`(sum(label_offset), 5)` array whose rows
`offset[r] .. offset[r] + len(cgraph) - 1` hold the rank's padded edge rows in
columns `0..3` and the rank id in column `4`.  `rows r j c` is entry `c` of
rank `r`'s `j`-th `cgraph` row. -/
def rankBuffer (lens : List ℕ) (rows : ℕ → ℕ → ℕ → ℚ) (r i c : ℕ) : ℚ :=
  if gatherOffset lens r ≤ (i : ℤ) ∧ (i : ℤ) < gatherOffset lens r + ((lens.getD r 0 : ℕ) : ℤ)
  then (if c < 4 then rows r (i - (gatherOffset lens r).toNat) c else (r : ℚ))
  else -1

/-- The root's merged buffer `mgraph` after `Reduce(op=MAX, root=0)` over the
per-rank send buffers (lines 181-185); `mgraph` itself is initialised to
`-1`. -/
def reduceMaxBuffers (lens : List ℕ) (rows : ℕ → ℕ → ℕ → ℚ) (i c : ℕ) : ℚ :=
  ((List.range lens.length).map (fun r => rankBuffer lens rows r i c)).foldl max (-1)

/-- A row of the solved graph `self.graph` broadcast at line 207: pit filling
elevation, spill-over node, owning rank, pit spilled towards, fill order. -/
structure GRow where
  elev : ℚ
  spill : ℤ
  rnk : ℤ
  tgtPit : ℤ
  ord : ℤ
deriving DecidableEq, Inhabited

/-- `proc[i]` after lines 210-215: each rank `r` contributes
`gbounds[graph[i,1]]` when it owns row `i` (`graph[i,2] == r`) and the row's
spill node is `> -1`, and the sentinel `-1` otherwise; the contributions are
combined by `Allreduce(MAX)`.  `gb r` is rank `r`'s 0/1 `gbounds` array. -/
def procVal (P : ℕ) (gb : ℕ → ℤ → ℤ) (row : GRow) : ℤ :=
  ((List.range P).map
    (fun r : ℕ => if row.rnk = (r : ℤ) ∧ -1 < row.spill then gb r row.spill else -1)).foldl
    max (-1)

/-- numpy indexing `graph[t]` for a possibly negative integer index `t`
(negative indices count from the end). -/
def rowAt (g : List GRow) (t : ℤ) : GRow :=
  g.getD (if t < 0 then ((g.length : ℤ) + t).toNat else t.toNat) default

/-- Lines 216-218: rows with `proc == 1` whose fill elevation equals the fill
elevation of the row indexed by their spill target get their target set
to `0`. -/
def severTargets (P : ℕ) (gb : ℕ → ℤ → ℤ) (g : List GRow) : List GRow :=
  g.map (fun row =>
    if procVal P gb row = 1 ∧ row.elev = (rowAt g row.tgtPit).elev
    then { row with tgtPit := 0 } else row)

/-- Modelled from the spec: the first output `sedVolumePerPit` of the
`pitVolume(deposit, pitId, nPits)` kernel (`eSCAPE._fortran`, source not under
`src/`) — the deposited volume at the nodes of depression `p`, summed per
depression id. -/
def pitSedVol (n : ℕ) (dep : ℕ → ℚ) (pid : ℕ → ℤ) (p : ℕ) : ℚ :=
  ∑ i in Finset.range n, if pid i = (p : ℤ) then dep i else 0

/-- Modelled from the spec: the second output `diffusiveResidual` of the
`pitVolume` kernel — deposit at a node belonging to no depression (a `pitId`
outside `0 .. nPits-1`) goes straight to diffusive transport. -/
def diffResidual (nb : ℕ) (dep : ℕ → ℚ) (pid : ℕ → ℤ) (i : ℕ) : ℚ :=
  if 0 ≤ pid i ∧ pid i < (nb : ℤ) then 0 else dep i

/-- Modelled from the spec: the `nodeCountPerPit` output of the `pitHeight`
kernel — how many nodes each depression has. -/
def pitNodeCount (n : ℕ) (pid : ℕ → ℤ) (p : ℕ) : ℚ :=
  ∑ i in Finset.range n, if pid i = (p : ℤ) then 1 else 0

/-- Modelled from the spec: the `remainingSediment` output of the `pitHeight`
kernel — each depression retains `min(deposited, capacity)` of its deposited
volume, the remainder is left over for diffusion. -/
def pitRemain (cap sed : ℕ → ℚ) (p : ℕ) : ℚ := sed p - min (sed p) (cap p)

/-- Lines 302-303: `excessSed = np.divide(remainSed, pitNodes,
out=np.zeros_like(remainSed), where=pitNodes != 0)`. -/
def excessPerPit (remain cnt : ℕ → ℚ) (p : ℕ) : ℚ :=
  if cnt p = 0 then 0 else remain p / cnt p

/-- Modelled from the spec: the `addExcess(excessSed, pitID)` kernel — every
node of a depression receives its depression's per-node excess. -/
def addExcessKernel (nb : ℕ) (exc : ℕ → ℚ) (pid : ℕ → ℤ) (i : ℕ) : ℚ :=
  if 0 ≤ pid i ∧ pid i < (nb : ℤ) then exc (pid i).toNat else 0

/-- Modelled from the spec: the filled-elevation output of the
`fillDepression` kernel (`eSCAPE._fortran`, source not under `src/`) at line
220 — priority-flood raises a node inside a depression to its depression's
resolved fill elevation when the raw elevation lies below it, and keeps the
raw elevation otherwise. -/
def fillDepressionKernel (raw : ℕ → ℚ) (watershed : ℕ → ℤ) (graphElev : ℤ → ℚ)
    (i : ℕ) : ℚ :=
  if 0 < watershed i ∧ raw i < graphElev (watershed i) then graphElev (watershed i)
  else raw i

/-- `np.where(np.isin(a, b))[0]` as written at line 88: the positions within
`a` of the entries that lie in `b`. -/
def isinPositions (a b : List ℕ) : List ℕ :=
  (List.range a.length).filter (fun i => decide (a.getD i 0 ∈ b))

/-- Line 88 of `__init__`:
`self.idGBounds = np.where(np.isin(self.idLocal, self.localboundIDs))[0]`. -/
def idGBoundsOf (idLocal localboundIDs : List ℕ) : List ℕ :=
  isinPositions idLocal localboundIDs

/-- Line 273 of `depositDepression`: `pitDep[self.idGBounds] = 0.` applied to
a per-node array. -/
def zeroAtIds (dep : ℕ → ℚ) (ids : List ℕ) (i : ℕ) : ℚ :=
  if i ∈ ids then 0 else dep i

/-- The attributes of the `UnstPit` object that `depositDepression` reads and
mutates, restricted to one partition: `capOf` holds the per-depression volume
capacities taken from `pitData`, `pitNodeMask` marks the nodes of
`self.pitID`, `gBoundMask` the global-boundary nodes. -/
structure PitState where
  n : ℕ
  nb : ℕ
  dt : ℚ
  phi : ℚ
  sealimit : ℚ
  slLimit : ℚ
  hLocal : ℕ → ℚ
  fillLocal : ℕ → ℚ
  cumED : ℕ → ℚ
  diffDep : ℕ → ℚ
  vSed : ℕ → ℚ
  pitLoc : ℕ → ℤ
  pitNodeMask : ℕ → Bool
  gBoundMask : ℕ → Bool
  capOf : ℕ → ℚ
  pitDataLen : ℕ

/-- Lines 259-261: an empty depression table is replaced by the single marker
row whose combined-id column is `-1`. -/
def initPitData (s : PitState) : PitState :=
  if s.pitDataLen = 0 then { s with pitDataLen := 1 } else s

/-- Line 263: `elev = self.hLocal.getArray() + self.sealimit`. -/
def elevOf (s : PitState) (i : ℕ) : ℚ := s.hLocal i + s.sealimit

/-- Lines 268-273: per-node deposited volume `vol * dt / (1 - phi)` on the
pit nodes, zeroed on the global boundary. -/
def pitDepOf (s : PitState) (i : ℕ) : ℚ :=
  if s.pitNodeMask i ∧ ¬ s.gBoundMask i then s.vSed i * s.dt / (1 - s.phi) else 0

/-- Line 279: `pitID[elev <= self.sl_limit] = -1`. -/
def pidOf (s : PitState) (i : ℕ) : ℤ :=
  if elevOf s i ≤ s.slLimit then -1 else s.pitLoc i

/-- Modelled from the spec: the new-elevation output of the `pitHeight`
kernel — a depression's nodes rise towards its fill level by the fraction of
its capacity filled by the deposited volume (the code comment calls this "the
percentage that will be deposited in each depression"). -/
def newZOf (s : PitState) (i : ℕ) : ℚ :=
  if 0 ≤ pidOf s i ∧ pidOf s i < (s.nb : ℤ) then
    elevOf s i +
      (s.fillLocal i - elevOf s i) *
        (if s.capOf (pidOf s i).toNat = 0 then 0
         else min (pitSedVol s.n (pitDepOf s) (pidOf s) (pidOf s i).toNat /
           s.capOf (pidOf s i).toNat) 1)
  else elevOf s i

/-- Lines 263-310 after the failing lookup: the elevation, cumulative
erosion/deposition and diffusive-deposit updates, all computed from the
pre-call arrays exactly as the routine would. -/
def depositUpdates (s : PitState) : PitState :=
  { s with
    hLocal := fun i => newZOf s i - s.sealimit,
    cumED := fun i => s.cumED i + (newZOf s i - elevOf s i),
    diffDep := fun i =>
      diffResidual s.nb (pitDepOf s) (pidOf s) i +
      addExcessKernel s.nb
        (excessPerPit (pitRemain s.capOf (pitSedVol s.n (pitDepOf s) (pidOf s)))
          (pitNodeCount s.n (pidOf s)))
        (pidOf s) i }

/-- The Python failure mode relevant to `depositDepression`. -/
inductive PyErr where
  | nameError
deriving DecidableEq

/-- A statement of the method body: a bare name lookup (raising `NameError`
when the name is unresolvable) or a state mutation. -/
inductive PStmt where
  | evalName (nm : String)
  | mutate (f : PitState → PitState)

/-- Sequential execution of a statement list: a failing name lookup aborts
with the state reached so far and no further statement runs. -/
def runStmts (env : List String) : List PStmt → PitState → PitState × Option PyErr
  | [], s => (s, none)
  | PStmt.evalName nm :: rest, s =>
      if nm ∈ env then runStmts env rest s else (s, some PyErr.nameError)
  | PStmt.mutate f :: rest, s => runStmts env rest (f s)

/-- Every name bound at module level in `pitfillunst.py` (imports, module
constants, the class), together with the method's sole initial local `self` —
the names resolvable at the top of `depositDepression`; `edgesded` is not
among them, nor is it a Python builtin. -/
def moduleDefinedNames : List String :=
  ["np", "pd", "MPI", "sys", "petsc4py", "PETSc", "clock", "warnings",
   "fillAlgo", "fillDepression", "combinePit", "pitVolume", "pitHeight",
   "addExcess", "MPIrank", "MPIsize", "MPIcomm", "UnstPit", "self"]

/-- The body of `depositDepression` (lines 257-310): the bare name `edgesded`
first, then the depression-table initialisation and the field updates. -/
def depositDepressionStmts : List PStmt :=
  [PStmt.evalName "edgesded",
   PStmt.mutate initPitData,
   PStmt.mutate depositUpdates]

/-! ## Theorems -/

theorem le_foldl_max {α : Type} [LinearOrder α] (a : α) (l : List α) :
    a ≤ l.foldl max a := by
  induction l generalizing a with
  | nil => exact le_refl a
  | cons x t ih => exact le_trans (le_max_left a x) (ih (max a x))

theorem foldl_max_const {α : Type} [LinearOrder α] (b : α) (l : List α)
    (h : ∀ x ∈ l, x = b) : l.foldl max b = b := by
  induction l with
  | nil => rfl
  | cons x t ih =>
    have hx : x = b := h x (by simp)
    have hm : max b x = b := by simp [hx]
    rw [List.foldl_cons, hm]
    exact ih (fun y hy => h y (by simp [hy]))

/-- Folding `max` from `bot` over a list that is `bot` everywhere except at one
index, where it holds `v ≥ bot`, returns `v`. This is the sentinel trick used
by the `Allreduce(MAX)` calls of `defineDepressionParameters`. -/
theorem foldl_max_onehot {α : Type} [LinearOrder α] (bot v : α) (hv : bot ≤ v)
    (P r0 : ℕ) (hr : r0 < P) (f : ℕ → α)
    (hf : ∀ r, r < P → f r = if r = r0 then v else bot) :
    ((List.range P).map f).foldl max bot = v := by
  induction P with
  | zero => exact absurd hr (Nat.not_lt_zero r0)
  | succ P ih =>
    rw [List.range_succ, List.map_append, List.foldl_append]
    simp only [List.map_cons, List.map_nil, List.foldl_cons, List.foldl_nil]
    by_cases hP : r0 = P
    · have hpre : ((List.range P).map f).foldl max bot = bot := by
        apply foldl_max_const
        intro x hx
        rcases List.mem_map.mp hx with ⟨r, hrP, rfl⟩
        have hrP' : r < P := List.mem_range.mp hrP
        rw [hf r (Nat.lt_succ_of_lt hrP')]
        have : r ≠ r0 := by omega
        simp [this]
      have hfP : f P = v := by rw [hf P (Nat.lt_succ_self P), if_pos hP.symm]
      rw [hpre, hfP]
      exact max_eq_right hv
    · have hr' : r0 < P := by omega
      have hpre : ((List.range P).map f).foldl max bot = v :=
        ih hr' (fun r hrP => hf r (Nat.lt_succ_of_lt hrP))
      have hfP : f P = bot := by
        rw [hf P (Nat.lt_succ_self P), if_neg (fun h => hP h.symm)]
      rw [hpre, hfP]
      exact max_eq_left hv

theorem labelOffsetEntry_succ (counts : List ℕ) (r : ℕ) (hr : r < counts.length) :
    labelOffsetEntry counts (r + 1) = ((max 1 (counts.getD r 0) : ℕ) : ℤ) + 1 := by
  unfold labelOffsetEntry
  rw [if_neg (Nat.succ_ne_zero r)]
  refine foldl_max_onehot (-1) (((max 1 (counts.getD r 0) : ℕ) : ℤ) + 1)
    (by omega) counts.length r hr _ ?_
  intro s _
  unfold rankContribution
  by_cases hs : s = r
  · subst hs; simp
  · have hne : r + 1 ≠ s + 1 := by omega
    simp [hne, hs]

theorem offsetAt_succ (counts : List ℕ) (r : ℕ) :
    offsetAt counts (r + 1) = offsetAt counts r + labelOffsetEntry counts (r + 1) := by
  unfold offsetAt
  rw [List.range_succ, List.map_append, List.sum_append]
  simp

theorem offsetAt_step (counts : List ℕ) (r : ℕ) (hr : r < counts.length) :
    offsetAt counts r + ((counts.getD r 0 : ℕ) : ℤ) < offsetAt counts (r + 1) := by
  rw [offsetAt_succ, labelOffsetEntry_succ counts r hr]
  have : (counts.getD r 0 : ℤ) ≤ ((max 1 (counts.getD r 0) : ℕ) : ℤ) := by
    exact_mod_cast Nat.le_max_right 1 (counts.getD r 0)
  omega

theorem offsetAt_mono (counts : List ℕ) {a b : ℕ} (hab : a ≤ b)
    (hb : b ≤ counts.length) : offsetAt counts a ≤ offsetAt counts b := by
  induction b, hab using Nat.le_induction with
  | base => exact le_refl _
  | succ b hab ih =>
    have hb' : b < counts.length := by omega
    have h1 := offsetAt_step counts b hb'
    have h2 := ih (by omega)
    have : (0 : ℤ) ≤ ((counts.getD b 0 : ℕ) : ℤ) := by positivity
    omega

/-- Claim C3: the per-rank offsets of `defineDepressionParameters`
(each rank contributing `max(1, local depression count) + 1` into a
sentinel-initialised buffer combined by `Allreduce(MAX)` followed by a prefix
sum) are strictly increasing in rank, and the globally-offset watershed label
ranges `offset_r + 1 .. offset_r + count_r` of two distinct ranks are
disjoint, so no globally-offset label is shared by two ranks. -/
theorem escape_label_offsets_disjoint (counts : List ℕ) (r s : ℕ)
    (hrs : r < s) (hs : s < counts.length) :
    offsetAt counts r < offsetAt counts s ∧
    ∀ j k : ℕ, 1 ≤ j → j ≤ counts.getD r 0 → 1 ≤ k → k ≤ counts.getD s 0 →
      offsetAt counts r + (j : ℤ) ≠ offsetAt counts s + (k : ℤ) := by
  have hr : r < counts.length := lt_trans hrs hs
  have hstep := offsetAt_step counts r hr
  have hmono : offsetAt counts (r + 1) ≤ offsetAt counts s :=
    offsetAt_mono counts (by omega) (le_of_lt hs)
  constructor
  · have : (0 : ℤ) ≤ ((counts.getD r 0 : ℕ) : ℤ) := by positivity
    omega
  · intro j k hj hjle hk hkle hEq
    have hjz : (j : ℤ) ≤ ((counts.getD r 0 : ℕ) : ℤ) := by exact_mod_cast hjle
    have hkz : (1 : ℤ) ≤ (k : ℤ) := by exact_mod_cast hk
    omega

/-- Concrete instance of `escape_label_offsets_disjoint` for two ranks with
one and two local depressions. -/
theorem escape_label_offsets_disjoint_witness :
    offsetAt [1, 2] 0 < offsetAt [1, 2] 1 ∧
    offsetAt [1, 2] 0 + (1 : ℤ) ≠ offsetAt [1, 2] 1 + (1 : ℤ) :=
  ⟨(escape_label_offsets_disjoint [1, 2] 0 1 (by decide) (by decide)).1,
   (escape_label_offsets_disjoint [1, 2] 0 1 (by decide) (by decide)).2 1 1
     (by decide) (by decide) (by decide) (by decide)⟩

theorem gatherEntry_succ (lens : List ℕ) (r : ℕ) (hr : r < lens.length) :
    gatherEntry lens (r + 1) = ((max 1 (lens.getD r 0) : ℕ) : ℤ) := by
  unfold gatherEntry
  rw [if_neg (Nat.succ_ne_zero r)]
  refine foldl_max_onehot 0 (((max 1 (lens.getD r 0) : ℕ) : ℤ))
    (by omega) lens.length r hr _ ?_
  intro s _
  unfold gatherContribution
  by_cases hs : s = r
  · subst hs; simp
  · have hne : r + 1 ≠ s + 1 := by omega
    simp [hne, hs]

theorem gatherEntry_nonneg (lens : List ℕ) (i : ℕ) : 0 ≤ gatherEntry lens i := by
  unfold gatherEntry
  by_cases hi : i = 0
  · simp [hi]
  · rw [if_neg hi]
    exact le_foldl_max 0 _

theorem gatherOffset_nonneg (lens : List ℕ) (r : ℕ) : 0 ≤ gatherOffset lens r := by
  unfold gatherOffset
  apply List.sum_nonneg
  intro x hx
  rcases List.mem_map.mp hx with ⟨i, _, rfl⟩
  exact gatherEntry_nonneg lens i

theorem gatherOffset_succ (lens : List ℕ) (r : ℕ) :
    gatherOffset lens (r + 1) = gatherOffset lens r + gatherEntry lens (r + 1) := by
  unfold gatherOffset
  rw [List.range_succ, List.map_append, List.sum_append]
  simp

theorem gatherOffset_slot_end (lens : List ℕ) (r : ℕ) (hr : r < lens.length) :
    gatherOffset lens r + ((lens.getD r 0 : ℕ) : ℤ) ≤ gatherOffset lens (r + 1) := by
  rw [gatherOffset_succ, gatherEntry_succ lens r hr]
  have : (lens.getD r 0 : ℤ) ≤ ((max 1 (lens.getD r 0) : ℕ) : ℤ) := by
    exact_mod_cast Nat.le_max_right 1 (lens.getD r 0)
  omega

theorem gatherOffset_mono (lens : List ℕ) {a b : ℕ} (hab : a ≤ b) :
    gatherOffset lens a ≤ gatherOffset lens b := by
  induction b, hab using Nat.le_induction with
  | base => exact le_refl _
  | succ b hab ih =>
    rw [gatherOffset_succ]
    have := gatherEntry_nonneg lens (b + 1)
    omega

/-- Claim C5: the component-wise `MAX` reduction to root over the
sentinel-initialised fixed-width buffers acts as a lossless gather: for every
rank `r` and row `j < len(cgraph_r)` written into rank `r`'s disjoint slot
range, the merged buffer holds exactly rank `r`'s row (columns `0..3` the
padded edge row, column 4 the rank id), provided the written values are
`≥ -1`, i.e. at least the sentinel. -/
theorem escape_reduce_max_gather (lens : List ℕ) (rows : ℕ → ℕ → ℕ → ℚ)
    (r j c : ℕ) (hr : r < lens.length) (hj : j < lens.getD r 0)
    (hrows : ∀ a b d : ℕ, -1 ≤ rows a b d) :
    reduceMaxBuffers lens rows ((gatherOffset lens r).toNat + j) c =
      (if c < 4 then rows r j c else (r : ℚ)) := by
  have hnn : 0 ≤ gatherOffset lens r := gatherOffset_nonneg lens r
  have hiz : (((gatherOffset lens r).toNat + j : ℕ) : ℤ) =
      gatherOffset lens r + (j : ℤ) := by
    push_cast [Int.toNat_of_nonneg hnn]
    ring
  have hv : (-1 : ℚ) ≤ (if c < 4 then rows r j c else (r : ℚ)) := by
    by_cases hc : c < 4
    · rw [if_pos hc]; exact hrows r j c
    · rw [if_neg hc]
      have : (0 : ℚ) ≤ (r : ℚ) := Nat.cast_nonneg r
      linarith
  unfold reduceMaxBuffers
  refine foldl_max_onehot (-1) _ hv lens.length r hr _ ?_
  intro s hs
  by_cases hsr : s = r
  · subst hsr
    rw [if_pos rfl]
    unfold rankBuffer
    rw [if_pos (by constructor <;> omega)]
    have hsub : (gatherOffset lens s).toNat + j - (gatherOffset lens s).toNat = j := by
      omega
    rw [hsub]
  · rw [if_neg hsr]
    unfold rankBuffer
    rcases Nat.lt_or_ge s r with hlt | hge
    · have h1 : gatherOffset lens s + ((lens.getD s 0 : ℕ) : ℤ) ≤
          gatherOffset lens (s + 1) :=
        gatherOffset_slot_end lens s (by omega)
      have h2 : gatherOffset lens (s + 1) ≤ gatherOffset lens r :=
        gatherOffset_mono lens (by omega)
      rw [if_neg (by rintro ⟨hA, hB⟩; omega)]
    · have hlt' : r < s := by omega
      have h1 : gatherOffset lens r + ((lens.getD r 0 : ℕ) : ℤ) ≤
          gatherOffset lens (r + 1) :=
        gatherOffset_slot_end lens r hr
      have h2 : gatherOffset lens (r + 1) ≤ gatherOffset lens s :=
        gatherOffset_mono lens (by omega)
      rw [if_neg (by rintro ⟨hA, hB⟩; omega)]

/-- Concrete instance of `escape_reduce_max_gather`: a single rank with one
row of constant entries `2`. -/
theorem escape_reduce_max_gather_witness :
    (∀ a b d : ℕ, (-1 : ℚ) ≤ (fun _ _ _ => (2 : ℚ)) a b d) ∧
    reduceMaxBuffers [1] (fun _ _ _ => (2 : ℚ)) ((gatherOffset [1] 0).toNat + 0) 0 =
      (if (0 : ℕ) < 4 then (2 : ℚ) else ((0 : ℕ) : ℚ)) :=
  ⟨fun _ _ _ => by norm_num,
   escape_reduce_max_gather [1] (fun _ _ _ => (2 : ℚ)) 0 0 0 (by decide) (by decide)
     (fun _ _ _ => by norm_num)⟩

theorem getD_map_of_lt {α β : Type} [Inhabited α] [Inhabited β] (f : α → β)
    (l : List α) (i : ℕ) (hi : i < l.length) :
    (l.map f).getD i default = f (l.getD i default) := by
  rw [List.getD_eq_getElem?_getD, List.getD_eq_getElem?_getD, List.getElem?_map,
    List.getElem?_eq_getElem hi]
  rfl

theorem procVal_owner (P : ℕ) (gb : ℕ → ℤ → ℤ) (row : GRow) (r0 : ℕ)
    (hrk : row.rnk = (r0 : ℤ)) (hP : r0 < P)
    (hgb : ∀ r n, gb r n = 0 ∨ gb r n = 1) :
    procVal P gb row = (if -1 < row.spill then gb r0 row.spill else -1) := by
  unfold procVal
  have hv : (-1 : ℤ) ≤ (if -1 < row.spill then gb r0 row.spill else -1) := by
    by_cases hsp : -1 < row.spill
    · rw [if_pos hsp]
      rcases hgb r0 row.spill with h | h <;> omega
    · rw [if_neg hsp]
  refine foldl_max_onehot (-1) _ hv P r0 hP _ ?_
  intro s _
  by_cases hs : s = r0
  · subst hs
    by_cases hsp : -1 < row.spill
    · rw [if_pos ⟨hrk, hsp⟩, if_pos rfl, if_pos hsp]
    · rw [if_neg (fun h => hsp h.2), if_pos rfl, if_neg hsp]
  · have : row.rnk ≠ (s : ℤ) := by
      rw [hrk]
      exact_mod_cast fun h => hs (Nat.cast_injective h).symm
    rw [if_neg (fun h => this h.1), if_neg hs]

/-- Claim C7: a solved-graph row owned by rank `r0` whose spill-over node lies
on the global mesh boundary (`gbounds == 1` on the owning rank) and whose fill
elevation equals the fill elevation of the row its spill target indexes gets
its spill-target entry set to the no-target value `0`; any row failing either
condition keeps all its fields unchanged. -/
theorem escape_sever_boundary_spill (P : ℕ) (gb : ℕ → ℤ → ℤ) (g : List GRow)
    (i : ℕ) (hi : i < g.length) (hgb : ∀ r n, gb r n = 0 ∨ gb r n = 1)
    (r0 : ℕ) (hrk : (g.getD i default).rnk = (r0 : ℤ)) (hP : r0 < P) :
    (severTargets P gb g).getD i default =
      (if (-1 < (g.getD i default).spill ∧ gb r0 (g.getD i default).spill = 1) ∧
          (g.getD i default).elev = (rowAt g (g.getD i default).tgtPit).elev
       then { g.getD i default with tgtPit := 0 } else g.getD i default) := by
  unfold severTargets
  rw [getD_map_of_lt _ g i hi]
  have hb := procVal_owner P gb (g.getD i default) r0 hrk hP hgb
  have hiff : procVal P gb (g.getD i default) = 1 ↔
      (-1 < (g.getD i default).spill ∧ gb r0 (g.getD i default).spill = 1) := by
    rw [hb]
    by_cases hsp : -1 < (g.getD i default).spill
    · rw [if_pos hsp]
      constructor
      · exact fun h => ⟨hsp, h⟩
      · exact fun h => h.2
    · rw [if_neg hsp]
      constructor
      · intro h; omega
      · exact fun h => absurd h.1 hsp
  exact if_congr (and_congr_left (fun _ => hiff)) rfl rfl

/-- Concrete instance of `escape_sever_boundary_spill`: a two-row graph where
row 0 spills through boundary node 2 into row 1 at equal fill elevation; its
target is severed to 0. -/
theorem escape_sever_boundary_spill_witness :
    ((severTargets 1 (fun _ _ => 1)
        [{ elev := 5, spill := 2, rnk := 0, tgtPit := 1, ord := 0 },
         { elev := 5, spill := -1, rnk := -1, tgtPit := 0, ord := 1 }]).getD 0
        default).tgtPit = 0 := by
  rw [escape_sever_boundary_spill 1 (fun _ _ => 1)
    [{ elev := 5, spill := 2, rnk := 0, tgtPit := 1, ord := 0 },
     { elev := 5, spill := -1, rnk := -1, tgtPit := 0, ord := 1 }]
    0 (by decide) (fun r n => Or.inr rfl) 0 rfl (by decide)]
  decide

/-- Claim C6 (counterexample): with two ranks of one depression each, rank 1's
offset is positive, yet a spill-graph row whose target is the `-1` exterior
sentinel keeps target `-1` after the shift of lines 149-152 — the target
column of that row is not shifted by the rank offset. -/
theorem escape_shift_target_counterexample :
    0 < offsetAt [1, 1] 1 ∧
    (shiftEdge (offsetAt [1, 1] 1) { src := 1, tgt := -1, wgt := 5 }).tgt ≠
      -1 + offsetAt [1, 1] 1 := by
  constructor
  · decide
  · show (if (0 : ℤ) < -1 then -1 + offsetAt [1, 1] 1 else -1) ≠ -1 + offsetAt [1, 1] 1
    decide

/-- Claim C6 (amended): every watershed label and every edge source column is
shifted by the owning rank's offset, while a target column is shifted exactly
when it is positive — the nonpositive sentinel targets are preserved. -/
theorem escape_shift_endpoints_amended (off : ℤ) (e : LEdge) (w : ℕ → ℤ) (i : ℕ) :
    (shiftEdge off e).src = e.src + off ∧
    (shiftEdge off e).tgt = (if 0 < e.tgt then e.tgt + off else e.tgt) ∧
    shiftWatershed off w i = w i + off :=
  ⟨rfl, rfl, rfl⟩

theorem sum_indicator_pid (nb : ℕ) (pid : ℕ → ℤ) (i : ℕ) (f : ℕ → ℚ) :
    (∑ p in Finset.range nb, if pid i = (p : ℤ) then f p else 0) =
      (if 0 ≤ pid i ∧ pid i < (nb : ℤ) then f (pid i).toNat else 0) := by
  by_cases hv : 0 ≤ pid i ∧ pid i < (nb : ℤ)
  · rw [if_pos hv]
    have hq : (pid i).toNat < nb := by omega
    have hcond : ∀ p : ℕ, (pid i = (p : ℤ)) ↔ (p = (pid i).toNat) := by
      intro p
      constructor
      · intro h; omega
      · intro h; omega
    calc (∑ p in Finset.range nb, if pid i = (p : ℤ) then f p else 0)
        = ∑ p in Finset.range nb, if p = (pid i).toNat then f p else 0 :=
          Finset.sum_congr rfl (fun p _ => if_congr (hcond p) rfl rfl)
      _ = if (pid i).toNat ∈ Finset.range nb then f (pid i).toNat else 0 :=
          Finset.sum_ite_eq' (Finset.range nb) ((pid i).toNat) f
      _ = f (pid i).toNat := by rw [if_pos (Finset.mem_range.mpr hq)]
  · rw [if_neg hv]
    apply Finset.sum_eq_zero
    intro p hp
    have hp' := Finset.mem_range.mp hp
    rw [if_neg]
    intro h
    exact hv (by constructor <;> omega)

theorem sum_pitSedVol (n nb : ℕ) (dep : ℕ → ℚ) (pid : ℕ → ℤ) :
    (∑ p in Finset.range nb, pitSedVol n dep pid p) =
      ∑ i in Finset.range n, if 0 ≤ pid i ∧ pid i < (nb : ℤ) then dep i else 0 := by
  unfold pitSedVol
  rw [Finset.sum_comm]
  exact Finset.sum_congr rfl (fun i _ => sum_indicator_pid nb pid i (fun _ => dep i))

theorem sum_addExcess (n nb : ℕ) (exc : ℕ → ℚ) (pid : ℕ → ℤ) :
    (∑ i in Finset.range n, addExcessKernel nb exc pid i) =
      ∑ p in Finset.range nb, pitNodeCount n pid p * exc p := by
  unfold addExcessKernel
  have hswap : ∀ i, (if 0 ≤ pid i ∧ pid i < (nb : ℤ) then exc (pid i).toNat else 0) =
      ∑ p in Finset.range nb, if pid i = (p : ℤ) then exc p else 0 :=
    fun i => (sum_indicator_pid nb pid i exc).symm
  rw [Finset.sum_congr rfl (fun i _ => hswap i), Finset.sum_comm]
  apply Finset.sum_congr rfl
  intro p _
  unfold pitNodeCount
  rw [Finset.sum_mul]
  apply Finset.sum_congr rfl
  intro i _
  by_cases h : pid i = (p : ℤ) <;> simp [h]

theorem count_mul_excess (n : ℕ) (dep cap : ℕ → ℚ) (pid : ℕ → ℤ) (p : ℕ)
    (hcap : 0 ≤ cap p) :
    pitNodeCount n pid p *
      excessPerPit (pitRemain cap (pitSedVol n dep pid)) (pitNodeCount n pid) p =
      pitRemain cap (pitSedVol n dep pid) p := by
  unfold excessPerPit
  by_cases hc : pitNodeCount n pid p = 0
  · rw [if_pos hc, mul_zero]
    have hzero : ∀ i ∈ Finset.range n, ¬ pid i = (p : ℤ) := by
      intro i hi hcontra
      have hnn : ∀ j ∈ Finset.range n, (0 : ℚ) ≤ if pid j = (p : ℤ) then 1 else 0 := by
        intro j _
        by_cases h : pid j = (p : ℤ) <;> simp [h]
      have := (Finset.sum_eq_zero_iff_of_nonneg hnn).mp hc i hi
      rw [if_pos hcontra] at this
      norm_num at this
    have hsed : pitSedVol n dep pid p = 0 := by
      unfold pitSedVol
      exact Finset.sum_eq_zero (fun i hi => if_neg (hzero i hi))
    unfold pitRemain
    rw [hsed, min_eq_left hcap]
    ring
  · rw [if_neg hc, mul_comm]
    exact div_mul_cancel₀ _ hc

/-- Claim C2: conservation of the deposited volume across one
`depositDepression` redistribution (single partition, so the `Allreduce(SUM)`
calls are the identity): the total per-node deposited volume equals the sum
over depressions of the volume they retain (`min(deposited, capacity)`) plus
the total handed to diffusive transport (the non-depression residual plus the
per-pit excess spread over the pit's nodes). -/
theorem escape_deposit_conservation (n nb : ℕ) (dep : ℕ → ℚ) (pid : ℕ → ℤ)
    (cap : ℕ → ℚ) (hcap : ∀ p, 0 ≤ cap p) :
    (∑ i in Finset.range n, dep i) =
      (∑ p in Finset.range nb, min (pitSedVol n dep pid p) (cap p)) +
      ∑ i in Finset.range n,
        (diffResidual nb dep pid i +
         addExcessKernel nb
           (excessPerPit (pitRemain cap (pitSedVol n dep pid)) (pitNodeCount n pid))
           pid i) := by
  have h1 : (∑ i in Finset.range n, dep i) =
      (∑ i in Finset.range n, if 0 ≤ pid i ∧ pid i < (nb : ℤ) then dep i else 0) +
      ∑ i in Finset.range n, diffResidual nb dep pid i := by
    rw [← Finset.sum_add_distrib]
    apply Finset.sum_congr rfl
    intro i _
    unfold diffResidual
    by_cases h : 0 ≤ pid i ∧ pid i < (nb : ℤ) <;> simp [h]
  have h3 : (∑ p in Finset.range nb, pitSedVol n dep pid p) =
      (∑ p in Finset.range nb, min (pitSedVol n dep pid p) (cap p)) +
      ∑ p in Finset.range nb, pitRemain cap (pitSedVol n dep pid) p := by
    rw [← Finset.sum_add_distrib]
    apply Finset.sum_congr rfl
    intro p _
    unfold pitRemain
    ring
  have h4 : (∑ p in Finset.range nb, pitRemain cap (pitSedVol n dep pid) p) =
      ∑ i in Finset.range n,
        addExcessKernel nb
          (excessPerPit (pitRemain cap (pitSedVol n dep pid)) (pitNodeCount n pid))
          pid i := by
    rw [sum_addExcess n nb _ pid]
    exact Finset.sum_congr rfl (fun p _ => (count_mul_excess n dep cap pid p (hcap p)).symm)
  calc (∑ i in Finset.range n, dep i)
      = (∑ i in Finset.range n, if 0 ≤ pid i ∧ pid i < (nb : ℤ) then dep i else 0) +
        ∑ i in Finset.range n, diffResidual nb dep pid i := h1
    _ = (∑ p in Finset.range nb, pitSedVol n dep pid p) +
        ∑ i in Finset.range n, diffResidual nb dep pid i := by
          rw [sum_pitSedVol n nb dep pid]
    _ = (∑ p in Finset.range nb, min (pitSedVol n dep pid p) (cap p)) +
        ((∑ i in Finset.range n, diffResidual nb dep pid i) +
         ∑ i in Finset.range n,
           addExcessKernel nb
             (excessPerPit (pitRemain cap (pitSedVol n dep pid)) (pitNodeCount n pid))
             pid i) := by
          rw [h3, h4]
          ring
    _ = (∑ p in Finset.range nb, min (pitSedVol n dep pid p) (cap p)) +
        ∑ i in Finset.range n,
          (diffResidual nb dep pid i +
           addExcessKernel nb
             (excessPerPit (pitRemain cap (pitSedVol n dep pid)) (pitNodeCount n pid))
             pid i) := by
          rw [← Finset.sum_add_distrib]

/-- Concrete instance of `escape_deposit_conservation`: two nodes, one
depression of node 0 with capacity 1 receiving 3 units, node 1 outside any
depression receiving 2 units. -/
theorem escape_deposit_conservation_witness :
    (∀ p : ℕ, (0 : ℚ) ≤ (fun _ : ℕ => (1 : ℚ)) p) ∧
    (∑ i in Finset.range 2, (fun j : ℕ => if j = 0 then (3 : ℚ) else 2) i) =
      (∑ p in Finset.range 1,
        min (pitSedVol 2 (fun j : ℕ => if j = 0 then (3 : ℚ) else 2)
              (fun j : ℕ => if j = 0 then (0 : ℤ) else -1) p)
          ((fun _ : ℕ => (1 : ℚ)) p)) +
      ∑ i in Finset.range 2,
        (diffResidual 1 (fun j : ℕ => if j = 0 then (3 : ℚ) else 2)
            (fun j : ℕ => if j = 0 then (0 : ℤ) else -1) i +
         addExcessKernel 1
           (excessPerPit
             (pitRemain (fun _ : ℕ => (1 : ℚ))
               (pitSedVol 2 (fun j : ℕ => if j = 0 then (3 : ℚ) else 2)
                 (fun j : ℕ => if j = 0 then (0 : ℤ) else -1)))
             (pitNodeCount 2 (fun j : ℕ => if j = 0 then (0 : ℤ) else -1)))
           (fun j : ℕ => if j = 0 then (0 : ℤ) else -1) i) :=
  ⟨fun _ => by norm_num,
   escape_deposit_conservation 2 1 (fun j : ℕ => if j = 0 then (3 : ℚ) else 2)
     (fun j : ℕ => if j = 0 then (0 : ℤ) else -1) (fun _ : ℕ => (1 : ℚ))
     (fun _ => by norm_num)⟩

/-- Claim C8: for every node, the filled elevation produced by the
depression-filling kernel is at least the raw elevation. -/
theorem escape_fill_monotone (raw : ℕ → ℚ) (watershed : ℕ → ℤ)
    (graphElev : ℤ → ℚ) (i : ℕ) :
    raw i ≤ fillDepressionKernel raw watershed graphElev i := by
  unfold fillDepressionKernel
  by_cases h : 0 < watershed i ∧ raw i < graphElev (watershed i)
  · rw [if_pos h]
    exact le_of_lt h.2
  · rw [if_neg h]

/-- Claim C9 (code bug): with owned nodes `idLocal = [2, 3]` (nodes 0 and 1
not owned) and global-boundary node 3, line 88 stores positions within
`idLocal` rather than node ids: `idGBounds = [1]`, which is not a subset of
`idLocal`, and line 273's zeroing leaves boundary node 3's deposit of 7
untouched while zeroing node 1. -/
theorem escape_idGBounds_position_bug :
    idGBoundsOf [2, 3] [3] = [1] ∧ ((1 : ℕ) ∉ ([2, 3] : List ℕ)) ∧
    zeroAtIds (fun _ => 7) (idGBoundsOf [2, 3] [3]) 3 = 7 ∧
    zeroAtIds (fun _ => 7) (idGBoundsOf [2, 3] [3]) 1 = 0 := by
  refine ⟨by decide, by decide, ?_, ?_⟩
  · show (if (3 : ℕ) ∈ idGBoundsOf [2, 3] [3] then (0 : ℚ) else 7) = 7
    rw [if_neg (by decide)]
  · show (if (1 : ℕ) ∈ idGBoundsOf [2, 3] [3] then (0 : ℚ) else 7) = 0
    rw [if_pos (by decide)]

/-- Claim C10: every call of `depositDepression` fails on the bare name
`edgesded` at the start of the body (line 257) before the depression table or
any per-node field is touched, so the caller observes the pre-call state
unchanged. -/
theorem escape_deposit_raises_before_mutation (s : PitState) :
    runStmts moduleDefinedNames depositDepressionStmts s =
      (s, some PyErr.nameError) := rfl

end EscapePit
